import Mathlib

/-!
Verification of the core logic of `Shorekeeper.py`, a money-collection
tracker bot.  The Python source is shallowly embedded below:

* a calendar date is a `ℤ`, the number of days since 1970-01-01
  (so Python's `datetime.weekday()`, Monday = 0 … Sunday = 6, is
  `(d + 3) % 7`, since 1970-01-01 was a Thursday);
* Python float amounts are idealised as exact decimal numbers
  (`Dec`, a value `num / 10 ^ exp`); the special values `inf`/`nan`
  and binary rounding artefacts are outside this model;
* the mutable JSON store is an explicit `LedgerData` value threaded
  through each operation, and a `save_data` call is recorded in the
  operation's result instead of performed.

Each embedded definition keeps the Python name where Lean allows it and
mirrors the source line by line.
-/

namespace Shorekeeper

/-! ## Calendar (Shorekeeper.py lines 26-27, 55-80) -/

/-- List `DAYS` from line 26 of the source. -/
def DAYS : List String :=
  ["Monday", "Tuesday", "Wednesday", "Thursday", "Friday", "Saturday", "Sunday"]

/-- List `COLLECTION_DAYS` from line 27 of the source: Tuesday=1 to Saturday=5
in Python's weekday numbering. -/
def COLLECTION_DAYS : List ℤ := [1, 2, 3, 4, 5]

/-- Python's `datetime.weekday()` for a day number counted from 1970-01-01
(a Thursday): Monday = 0, …, Sunday = 6. -/
def pyWeekday (d : ℤ) : ℤ := (d + 3) % 7

/-- Name of the weekday of day `d`, as the source's `DAYS[...weekday()]`. -/
def weekdayName (d : ℤ) : String := DAYS.getD (pyWeekday d).toNat ""

/-- Embedding of `is_collection_day` (lines 55-57), with the implicit
`datetime.now()` made an explicit argument. -/
def is_collection_day (now : ℤ) : Bool := COLLECTION_DAYS.contains (pyWeekday now)

/-- Embedding of `is_report_day` (lines 60-62). -/
def is_report_day (now : ℤ) : Bool := pyWeekday now == 6

/-- Embedding of `get_week_range` (lines 65-80): the Tuesday and Saturday
of the reporting week of `today`. -/
def get_week_range (today : ℤ) : ℤ × ℤ :=
  let current_weekday := pyWeekday today
  let days_since_tuesday : ℤ :=
    if current_weekday = 6 then 5
    else if 1 ≤ current_weekday then current_weekday - 1
    else 6
  let tuesday := today - days_since_tuesday
  let saturday := tuesday + 4
  (tuesday, saturday)

/-! ## String helpers mirroring the Python string primitives used by the
source.  All strings handled by the program are ASCII, so the ASCII
versions of `lower`/`strip` are exact. -/

/-- Python's `str.lower()` (ASCII). -/
def pyLower (s : String) : String := ⟨s.data.map Char.toLower⟩

/-- Python's `str.strip()` with no argument: remove leading and trailing
whitespace. -/
def pyStrip (s : String) : String :=
  ⟨((s.data.dropWhile Char.isWhitespace).reverse.dropWhile Char.isWhitespace).reverse⟩

/-- Python's `str.replace(pat, rep)` on character lists: replace every
non-overlapping occurrence of `pat` (nonempty in all uses), scanning left
to right.  The explicit counter only makes the recursion structural; each
step consumes at least one character, so a counter starting at the length
of the list never runs out. -/
def listReplaceAux (pat rep : List Char) : ℕ → List Char → List Char
  | 0, l => l
  | _ + 1, [] => []
  | fuel + 1, c :: rest =>
    if pat ≠ [] ∧ pat.isPrefixOf (c :: rest) then
      rep ++ listReplaceAux pat rep fuel (List.drop (pat.length - 1) rest)
    else
      c :: listReplaceAux pat rep fuel rest

/-- Python's `str.replace(pat, rep)` (for nonempty `pat`). -/
def pyReplace (s pat rep : String) : String :=
  ⟨listReplaceAux pat.data rep.data s.data.length s.data⟩

/-- Accumulator pass behind `pySplitWs` (current word is kept reversed). -/
def wordsAux : List Char → List Char → List (List Char)
  | cur, [] => if cur = [] then [] else [cur.reverse]
  | cur, c :: rest =>
    if c.isWhitespace then
      if cur = [] then wordsAux [] rest else cur.reverse :: wordsAux [] rest
    else wordsAux (c :: cur) rest

/-- Python's `str.split()` with no argument: split on runs of whitespace,
discarding empty pieces. -/
def pySplitWs (s : String) : List String := (wordsAux [] s.data).map fun w => ⟨w⟩

/-- Python's `sep.join(list)`. -/
def joinWith (sep : String) : List String → String
  | [] => ""
  | [x] => x
  | x :: y :: rest => x ++ sep ++ joinWith sep (y :: rest)

/-- Python slicing `s[1:]`: drop the first character. -/
def strTail (s : String) : String := ⟨s.data.drop 1⟩

/-- Python slicing `s[:n]`: take the first `n` characters. -/
def strTake (s : String) (n : ℕ) : String := ⟨s.data.take n⟩

/-- Python `s * n` for strings: `n` copies of `s` concatenated. -/
def strRepeat (s : String) (n : ℕ) : String := ⟨(List.replicate n s.data).flatten⟩

/-- Python's `str.startswith(pre)`. -/
def pyStartsWith (s pre : String) : Bool := pre.data.isPrefixOf s.data

/-! ## Exact decimal numbers, idealising the Python float values that
flow through the program.  The special values `inf`/`nan` and binary
rounding artefacts are outside this model. -/

/-- Exact decimal number of value `num / 10 ^ exp`. -/
structure Dec where
  num : ℤ
  exp : ℕ
deriving DecidableEq, Repr

instance : Inhabited Dec := ⟨⟨0, 0⟩⟩

/-- Rational value of a `Dec`. -/
def Dec.val (d : Dec) : ℚ := (d.num : ℚ) / 10 ^ d.exp

/-- Literal `0` (the Python sums start from the int `0`). -/
def Dec.zero : Dec := ⟨0, 0⟩

/-- Python float `+`, exact on decimal values. -/
def Dec.add (a b : Dec) : Dec :=
  let e := max a.exp b.exp
  ⟨a.num * 10 ^ (e - a.exp) + b.num * 10 ^ (e - b.exp), e⟩

/-- Python comparison `x > 0`. -/
def Dec.pos (a : Dec) : Bool := decide (0 < a.num)

/-- Multiplication by `10 ^ k` (used for the exponent part of a float
literal). -/
def Dec.scale10 (a : Dec) (k : ℤ) : Dec :=
  if 0 ≤ k then ⟨a.num * 10 ^ k.toNat, a.exp⟩ else ⟨a.num, a.exp + (-k).toNat⟩

/-- Nearest integer to `n / d` for `d > 0`, ties to even: the rounding of
Python's fixed-point formatting, taken on the exact decimal value. -/
def roundDivEven (n d : ℤ) : ℤ :=
  let q := n / d
  let r := n % d
  if 2 * r < d then q
  else if d < 2 * r then q + 1
  else if q % 2 = 0 then q else q + 1

/-- Two-digit zero padding. -/
def pad2 (n : ℕ) : String := if n < 10 then "0" ++ toString n else toString n

/-- Python's `f"{x:.2f}"` on an exact decimal value (for a negative value
that rounds to zero Python would print `-0.00`; no claim involves
negative amounts). -/
def fmt2 (a : Dec) : String :=
  let c := roundDivEven (a.num * 100) (10 ^ a.exp)
  let s := if c < 0 then "-" else ""
  let n := c.natAbs
  s ++ toString (n / 100) ++ "." ++ pad2 (n % 100)

/-! ## Python's `float(str)` on a whitespace-free token -/

/-- Run of digits with single underscores between digits (as accepted
inside a Python numeric literal), continued after a first digit; returns
the accumulated value and the count of digits. -/
def digitsCore : ℕ → ℕ → List Char → Option (ℕ × ℕ)
  | v, n, [] => some (v, n)
  | v, n, c :: rest =>
    if c = '_' then
      match rest with
      | [] => none
      | d :: rest2 =>
        if d.isDigit then digitsCore (10 * v + (d.toNat - 48)) (n + 1) rest2 else none
    else if c.isDigit then digitsCore (10 * v + (c.toNat - 48)) (n + 1) rest
    else none

/-- Nonempty digit part of a Python numeric literal (must start with a
digit); returns the value and the count of digits. -/
def digitsPart : List Char → Option (ℕ × ℕ)
  | [] => none
  | c :: rest => if c.isDigit then digitsCore (c.toNat - 48) 1 rest else none

/-- Unsigned mantissa of a float literal: `digits`, `digits.`,
`digits.digits` or `.digits`; returns the value scaled to an integer and
the number of fractional digits. -/
def mantissaPart (cs : List Char) : Option (ℕ × ℕ) :=
  match cs.splitOn '.' with
  | [a] => (digitsPart a).map fun p => (p.1, 0)
  | [a, b] =>
    match a, b with
    | [], _ => digitsPart b
    | _, [] => (digitsPart a).map fun p => (p.1, 0)
    | _, _ => do
      let pa ← digitsPart a
      let pb ← digitsPart b
      pure (pa.1 * 10 ^ pb.2 + pb.1, pb.2)
  | _ => none

/-- Optional sign prefix of a Python numeric literal. -/
def signSplit : List Char → ℤ × List Char
  | '+' :: rest => (1, rest)
  | '-' :: rest => (-1, rest)
  | cs => (1, cs)

/-- Python's `float(token)` for a whitespace-free token, as an exact
decimal.  The `inf`, `infinity` and `nan` literals have no decimal value
and are outside the model. -/
def pyFloat (s : String) : Option Dec :=
  let p := signSplit s.data
  let cs := p.2.map fun c => if c = 'E' then 'e' else c
  match cs.splitOn 'e' with
  | [m] => (mantissaPart m).map fun q => ⟨p.1 * q.1, q.2⟩
  | [m, ex] => do
    let pm ← mantissaPart m
    let pe ← digitsPart (signSplit ex).2
    pure (Dec.scale10 ⟨p.1 * pm.1, pm.2⟩ ((signSplit ex).1 * pe.1))
  | _ => none

/-! ## `parse_payment_line` (Shorekeeper.py lines 159-200) -/

/-- Loop `for i in range(len(parts) - 1, 0, -1)` of the source: scan
`parts[i], parts[i-1], …, parts[1]` for the first token that parses as a
float, returning its index and value. -/
def scanAmount (parts : List String) : ℕ → Option (ℕ × Dec)
  | 0 => none
  | i + 1 =>
    match pyFloat (parts.getD (i + 1) "") with
    | some v => some (i + 1, v)
    | none => scanAmount parts i

/-- Token list of lines 164-173 of `parse_payment_line`: trim and
lowercase the line, strip the `paid` keyword, split on whitespace. -/
def lineTokens (line : String) : List String :=
  pySplitWs (pyReplace (pyReplace (pyLower (pyStrip line)) " paid" "") "paid" "")

/-- Lines 164-193 of `parse_payment_line`: normalise the line, require the
`@` sigil, strip the `paid` keyword, tokenise, locate the amount (the
rightmost numeric token at index ≥ 1) and build the candidate username. -/
def candidateOf (line : String) : Option (String × Dec) :=
  if ¬ pyStartsWith (pyLower (pyStrip line)) "@" then none
  else
    let parts := lineTokens line
    if parts.length < 2 then none
    else
      match scanAmount parts (parts.length - 1) with
      | none => none
      | some (i, amount) => some (strTail (joinWith " " (parts.take i)), amount)

/-- Lines 195-200 of `parse_payment_line`: first case-insensitive match
against the member list, defaulting to the raw candidate. -/
def resolveMember (members : List String) (username : String) : String :=
  match members.find? (fun m => pyLower m == pyLower username) with
  | some m => m
  | none => username

/-- Embedding of `parse_payment_line` (lines 159-200). -/
def parse_payment_line (line : String) (members : List String) :
    Option String × Option Dec :=
  match candidateOf line with
  | none => (none, none)
  | some (username, amount) => (some (resolveMember members username), some amount)

/-! ## Gregorian civil dates, for the `strftime` formats of the source -/

/-- Civil date `(year, month, day)` of day number `z` (days since
1970-01-01) in the proleptic Gregorian calendar used by `datetime`. -/
def civilFromDays (z : ℤ) : ℤ × ℕ × ℕ :=
  let zd := z + 719468
  let era := (if 0 ≤ zd then zd else zd - 146096) / 146097
  let doe := (zd - era * 146097).toNat
  let yoe := (doe - doe / 1460 + doe / 36524 - doe / 146096) / 365
  let y := (yoe : ℤ) + era * 400
  let doy := doe - (365 * yoe + yoe / 4 - yoe / 100)
  let mp := (5 * doy + 2) / 153
  let d := doy - (153 * mp + 2) / 5 + 1
  let m := if mp < 10 then mp + 3 else mp - 9
  (if m ≤ 2 then y + 1 else y, m, d)

/-- Four-digit zero padding (`%Y`; all dates in scope have 4-digit
years). -/
def pad4 (n : ℕ) : String :=
  if n < 10 then "000" ++ toString n
  else if n < 100 then "00" ++ toString n
  else if n < 1000 then "0" ++ toString n
  else toString n

/-- English month names, for `%B`. -/
def MONTHS : List String :=
  ["January", "February", "March", "April", "May", "June", "July",
   "August", "September", "October", "November", "December"]

/-- Python's `strftime("%Y-%m-%d")` of day number `z`. -/
def dateISO (z : ℤ) : String :=
  let c := civilFromDays z
  pad4 c.1.toNat ++ "-" ++ pad2 c.2.1 ++ "-" ++ pad2 c.2.2

/-- Python's `strftime("%B %d")` of day number `z`. -/
def fmtMonthDay (z : ℤ) : String :=
  let c := civilFromDays z
  MONTHS.getD (c.2.1 - 1) "" ++ " " ++ pad2 c.2.2

/-- Python's `strftime("%B %d, %Y")` of day number `z`. -/
def fmtMonthDayYear (z : ℤ) : String :=
  let c := civilFromDays z
  MONTHS.getD (c.2.1 - 1) "" ++ " " ++ pad2 c.2.2 ++ ", " ++ pad4 c.1.toNat

/-! ## The ledger store (the JSON document of `load_data`/`save_data`) -/

/-- One payment record, as built at lines 252-259 of the source. -/
structure Payment where
  username : String
  amount : Dec
  date : String
  time : String
  day : String
  recorded_by : String
deriving DecidableEq, Repr

/-- The persisted document `{"payments": …, "members": …,
"report_channel": …}` (line 44). -/
structure LedgerData where
  payments : List Payment
  members : List String
  report_channel : Option ℤ
deriving DecidableEq, Repr

/-! ## Python dicts with string keys, as insertion-ordered pair lists -/

/-- Python `k in d`. -/
def dictContains (l : List (String × α)) (k : String) : Bool :=
  l.any fun p => p.1 == k

/-- Python `d[k] = v`: overwrite in place, else append. -/
def dictInsert (l : List (String × α)) (k : String) (v : α) : List (String × α) :=
  if dictContains l k then l.map fun p => if p.1 == k then (k, v) else p
  else l ++ [(k, v)]

/-- Python dict comprehension `{k: v for k in ks}`. -/
def dictFromKeys (ks : List String) (v : α) : List (String × α) :=
  ks.foldl (fun acc k => dictInsert acc k v) []

/-- Python `d[k]` (as an option). -/
def dictGet? : List (String × α) → String → Option α
  | [], _ => none
  | q :: l, k => if q.1 == k then some q.2 else dictGet? l k

/-- Python `d[k] = f(d[k])` for a key known to be present. -/
def dictAdjust (l : List (String × α)) (k : String) (f : α → α) : List (String × α) :=
  l.map fun p => if p.1 == k then (p.1, f p.2) else p

/-! ## `generate_weekly_report` (Shorekeeper.py lines 83-137) -/

/-- Mutable state of the daily-breakdown loop: the report text built so
far, `week_total`, `member_totals` and `member_days`. -/
structure RState where
  report : String
  week_total : Dec
  mt : List (String × Dec)
  md : List (String × List String)
deriving DecidableEq, Repr

/-- Listing line of one payment (line 113). -/
def payLine (p : Payment) : String :=
  "   • @" ++ p.username ++ ": $" ++ fmt2 p.amount ++ "\n"

/-- Body of the inner loop `for p in day_payments` (lines 112-118); the
second component is `daily_total`. -/
def payStep (day_name : String) (acc : RState × Dec) (p : Payment) : RState × Dec :=
  let st := acc.1
  let hit := dictContains st.mt p.username
  (⟨st.report ++ payLine p,
    st.week_total.add p.amount,
    if hit then dictAdjust st.mt p.username (fun d => d.add p.amount) else st.mt,
    if hit then dictAdjust st.md p.username (fun ds => ds ++ [strTake day_name 3])
    else st.md⟩,
   acc.2.add p.amount)

/-- Body of the loop `while current_date <= saturday` (lines 101-121) for
one date `d`. -/
def dayStep (payments : List Payment) (st : RState) (d : ℤ) : RState :=
  let date_str := dateISO d
  let day_name := weekdayName d
  let day_payments := payments.filter fun p => p.date == date_str
  let st1 : RState :=
    { st with report := st.report ++ "\n📅 " ++ day_name ++ " (" ++ date_str ++ "):\n" }
  if day_payments.isEmpty then
    { st1 with report := st1.report ++ "   No payments recorded\n" }
  else
    let r := day_payments.foldl (payStep day_name) (st1, Dec.zero)
    { r.1 with report := r.1.report ++ "   Daily Total: $" ++ fmt2 r.2 ++ "\n" }

/-- Dates visited by `while current_date <= saturday` starting at
`tuesday`. -/
def weekDates (tuesday saturday : ℤ) : List ℤ :=
  (List.range (saturday + 1 - tuesday).toNat).map fun i => tuesday + i

/-- Summary line of one member (lines 127-130). -/
def memberLine (md : List (String × List String)) (m : String) (total : Dec) : String :=
  let status := if total.pos then "✅" else "❌"
  let days := (dictGet? md m).getD []
  let daysStr := if days.isEmpty then "None" else joinWith ", " days
  status ++ " @" ++ m ++ ": $" ++ fmt2 total ++ " (Days: " ++ daysStr ++ ")\n"

/-- Embedding of `generate_weekly_report` (lines 83-137), with the
implicit `datetime.now()` of `get_week_range` made the argument `now`. -/
def generate_weekly_report (data : LedgerData) (now : ℤ) : String :=
  let tsp := get_week_range now
  let header :=
    "```\n" ++ strRepeat "=" 50 ++ "\n"
    ++ "📊 WEEKLY MONEY COLLECTION REPORT\n"
    ++ "📆 " ++ fmtMonthDay tsp.1 ++ " - " ++ fmtMonthDayYear tsp.2 ++ "\n"
    ++ strRepeat "=" 50 ++ "\n\n"
    ++ "📋 DAILY BREAKDOWN:\n" ++ strRepeat "-" 40 ++ "\n"
  let st0 : RState :=
    ⟨header, Dec.zero, dictFromKeys data.members Dec.zero, dictFromKeys data.members []⟩
  let st := (weekDates tsp.1 tsp.2).foldl (dayStep data.payments) st0
  let rep1 := st.report ++ "\n" ++ strRepeat "-" 40 ++ "\n"
    ++ "👥 MEMBER SUMMARY:\n" ++ strRepeat "-" 40 ++ "\n"
  let rep2 := st.mt.foldl (fun r q => r ++ memberLine st.md q.1 q.2) rep1
  rep2 ++ "\n" ++ strRepeat "=" 50 ++ "\n"
    ++ "💰 WEEKLY TOTAL: $" ++ fmt2 st.week_total ++ "\n"
    ++ strRepeat "=" 50 ++ "\n" ++ "```"

/-! ## Decomposition helpers for the report (specification-side views of
the pieces of `generate_weekly_report`; the correspondence with the
single-pass loop of the source is proved below) -/

/-- Concatenation of a list of strings. -/
def concatStr (l : List String) : String := l.foldr (fun a b => a ++ b) ""

/-- Occurrence count of a nonempty pattern in a character list (overlaps
counted; the patterns used below cannot overlap themselves). -/
def countOccurAux (pat : List Char) : List Char → ℕ
  | [] => 0
  | c :: rest => (if pat.isPrefixOf (c :: rest) then 1 else 0) + countOccurAux pat rest

/-- Occurrence count of a nonempty pattern in a string. -/
def countOccur (s pat : String) : ℕ := countOccurAux pat.data s.data

/-- The string `x` occurs contiguously inside `y`. -/
def substrOf (x y : String) : Prop := ∃ a b, y = a ++ x ++ b

/-- Left fold of `Dec.add` (the sum accumulators of the report loop). -/
def addList (w : Dec) (ps : List Payment) : Dec := ps.foldl (fun a p => a.add p.amount) w

/-- Payments of the ledger dated on day `d` (the `day_payments` filter). -/
def daySelect (payments : List Payment) (d : ℤ) : List Payment :=
  payments.filter fun p => p.date == dateISO d

/-- Joint `member_totals`/`member_days` update of one payment (lines
116-118). -/
def tallyStep (day_name : String) (acc : List (String × Dec) × List (String × List String))
    (p : Payment) : List (String × Dec) × List (String × List String) :=
  let hit := dictContains acc.1 p.username
  (if hit then dictAdjust acc.1 p.username (fun d => d.add p.amount) else acc.1,
   if hit then dictAdjust acc.2 p.username (fun ds => ds ++ [strTake day_name 3]) else acc.2)

/-- Text of one day section of the report body. -/
def dayText (payments : List Payment) (d : ℤ) : String :=
  let dps := daySelect payments d
  "\n📅 " ++ weekdayName d ++ " (" ++ dateISO d ++ "):\n"
  ++ (if dps.isEmpty then "   No payments recorded\n"
      else concatStr (dps.map payLine) ++ "   Daily Total: $"
        ++ fmt2 (addList Dec.zero dps) ++ "\n")

/-- `member_totals` and `member_days` after the whole daily loop. -/
def weekTally (payments : List Payment) (dates : List ℤ)
    (acc : List (String × Dec) × List (String × List String)) :
    List (String × Dec) × List (String × List String) :=
  dates.foldl (fun a d => (daySelect payments d).foldl (tallyStep (weekdayName d)) a) acc

/-- `week_total` after the whole daily loop. -/
def weekTotalFold (payments : List Payment) (dates : List ℤ) (w : Dec) : Dec :=
  dates.foldl (fun a d => addList a (daySelect payments d)) w

/-- All payments selected by the daily loop, in visit order. -/
def weekSelect (payments : List Payment) (dates : List ℤ) : List Payment :=
  (dates.map (daySelect payments)).flatten

/-- Header block of the report (lines 87-94). -/
def reportHeader (now : ℤ) : String :=
  "```\n" ++ strRepeat "=" 50 ++ "\n"
  ++ "📊 WEEKLY MONEY COLLECTION REPORT\n"
  ++ "📆 " ++ fmtMonthDay (get_week_range now).1 ++ " - "
  ++ fmtMonthDayYear (get_week_range now).2 ++ "\n"
  ++ strRepeat "=" 50 ++ "\n\n"
  ++ "📋 DAILY BREAKDOWN:\n" ++ strRepeat "-" 40 ++ "\n"

/-- Separator block before the member summary (lines 123-125). -/
def summarySep : String :=
  "\n" ++ strRepeat "-" 40 ++ "\n" ++ "👥 MEMBER SUMMARY:\n" ++ strRepeat "-" 40 ++ "\n"

/-- Footer block of the report (lines 132-135). -/
def reportFooter (w : Dec) : String :=
  "\n" ++ strRepeat "=" 50 ++ "\n" ++ "💰 WEEKLY TOTAL: $" ++ fmt2 w ++ "\n"
  ++ strRepeat "=" 50 ++ "\n" ++ "```"

/-- `member_totals` as produced by the report run on `data` at `now`. -/
def mtOf (data : LedgerData) (now : ℤ) : List (String × Dec) :=
  (weekTally data.payments (weekDates (get_week_range now).1 (get_week_range now).2)
    (dictFromKeys data.members Dec.zero, dictFromKeys data.members [])).1

/-- `member_days` as produced by the report run on `data` at `now`. -/
def mdOf (data : LedgerData) (now : ℤ) : List (String × List String) :=
  (weekTally data.payments (weekDates (get_week_range now).1 (get_week_range now).2)
    (dictFromKeys data.members Dec.zero, dictFromKeys data.members [])).2

/-- `week_total` as produced by the report run on `data` at `now`. -/
def weekTotalOf (data : LedgerData) (now : ℤ) : Dec :=
  weekTotalFold data.payments (weekDates (get_week_range now).1 (get_week_range now).2)
    Dec.zero

/-- Member-summary section of the report (lines 127-130). -/
def summaryText (data : LedgerData) (now : ℤ) : String :=
  concatStr ((mtOf data now).map fun q => memberLine (mdOf data now) q.1 q.2)

/-- First-occurrence deduplication, the key order of a Python dict built
by comprehension over a list. -/
def pyDedup (ks : List String) : List String :=
  ks.foldl (fun acc k => if acc.contains k then acc else acc ++ [k]) []

/-! ## `on_message` (Shorekeeper.py lines 203-307): the payment-recording
message handler -/

/-- State threaded through the loop `for line in lines` (lines 229-261). -/
structure BatchState where
  data : LedgerData
  recorded_payments : List Payment
  errors : List String
deriving DecidableEq, Repr

/-- Result of one `on_message` call: the ledger state, the per-batch
lists, and the number of `save_data` calls performed. -/
structure MsgResult where
  data : LedgerData
  recorded_payments : List Payment
  errors : List String
  saves : ℕ
deriving DecidableEq, Repr

/-- Body of the loop `for line in lines` (lines 229-261) for one line.
The source tests only `username is None` after parsing; by
`parse_shape_spec` the amount is `some` exactly when the username is, so
the match below on both components is the same test.  The guard
`if not member_match:` at line 246 is Python truthiness: it fires both
when no member matched (`member_match` still `None`) and when the
matched member is the empty string, hence the extra `== ""` test. -/
def lineStep (members : List String) (now : ℤ) (timeStr author : String)
    (st : BatchState) (line : String) : BatchState :=
  let l := pyStrip line
  if ¬ pyStartsWith l "@" then st
  else
    match parse_payment_line l members with
    | (some username, some amount) =>
      match members.find? (fun m => pyLower m == pyLower username) with
      | none =>
        { st with errors := st.errors ++ ["⚠️ **@" ++ username ++ "** not in member list"] }
      | some member_match =>
        if member_match == "" then
          { st with errors := st.errors ++ ["⚠️ **@" ++ username ++ "** not in member list"] }
        else
          let payment : Payment :=
            ⟨member_match, amount, dateISO now, timeStr, weekdayName now, author⟩
          { st with
            data := { st.data with payments := st.data.payments ++ [payment] },
            recorded_payments := st.recorded_payments ++ [payment] }
    | _ => st

/-- The payment record produced by one line, if any (specification-side
view of one `lineStep` pass, with the same truthiness guard: a matched
empty-string member produces no record). -/
def linePayment? (members : List String) (now : ℤ) (timeStr author : String)
    (line : String) : Option Payment :=
  let l := pyStrip line
  if ¬ pyStartsWith l "@" then none
  else
    match parse_payment_line l members with
    | (some username, some amount) =>
      match members.find? (fun m => pyLower m == pyLower username) with
      | none => none
      | some member_match =>
        if member_match == "" then none
        else some ⟨member_match, amount, dateISO now, timeStr, weekdayName now, author⟩
    | _ => none

/-- The warning produced by one line, if any (a matched empty-string
member is falsy at line 246 and warns). -/
def lineWarn? (members : List String) (line : String) : Option String :=
  let l := pyStrip line
  if ¬ pyStartsWith l "@" then none
  else
    match parse_payment_line l members with
    | (some username, some _) =>
      match members.find? (fun m => pyLower m == pyLower username) with
      | none => some ("⚠️ **@" ++ username ++ "** not in member list")
      | some member_match =>
        if member_match == "" then some ("⚠️ **@" ++ username ++ "** not in member list")
        else none
    | _ => none

/-- Python's `content.split('\n')` on character lists. -/
def splitOnChar (c : Char) : List Char → List (List Char)
  | [] => [[]]
  | x :: rest =>
    match splitOnChar c rest with
    | [] => [[]]
    | w :: ws => if x = c then [] :: w :: ws else (x :: w) :: ws

/-- Python's `content.split('\n')`. -/
def splitNl (s : String) : List String := (splitOnChar '\n' s.data).map fun w => ⟨w⟩

/-- Embedding of the payment-recording path of `on_message` (lines
203-307).  `datetime.now()` is split into the day number `now` and the
time-of-day string `timeStr`; `author` is `str(message.author)`.  Replies
sent to the channel are not modelled; the ledger outcome, the recorded
and warned lists, and the number of `save_data` calls are. -/
def on_message (content : String) (data0 : LedgerData) (now : ℤ)
    (timeStr author : String) : MsgResult :=
  let c := pyStrip content
  if ¬ (c.data.contains '@' && c.data.any Char.isDigit) then ⟨data0, [], [], 0⟩
  else if ¬ is_collection_day now then ⟨data0, [], [], 0⟩
  else
    let members := data0.members
    let lines := splitNl c
    let st := lines.foldl (lineStep members now timeStr author) ⟨data0, [], []⟩
    ⟨st.data, st.recorded_payments, st.errors,
     if st.recorded_payments.isEmpty then 0 else 1⟩

/-! ## Roster slash commands (Shorekeeper.py lines 335-395) -/

/-- Outcome of a roster mutation. -/
inductive RosterOutcome
  | ok
  | duplicateMember
  | missingMember
deriving DecidableEq, Repr

/-- Embedding of `addmember` (lines 362-378): the outcome, the resulting
ledger, and the number of `save_data` calls. -/
def addmember (name : String) (data : LedgerData) : RosterOutcome × LedgerData × ℕ :=
  let n := pyReplace (pyLower name) "@" ""
  if data.members.contains n then (.duplicateMember, data, 0)
  else (.ok, { data with members := data.members ++ [n] }, 1)

/-- Embedding of `removemember` (lines 381-395). -/
def removemember (name : String) (data : LedgerData) : RosterOutcome × LedgerData × ℕ :=
  let n := pyReplace (pyLower name) "@" ""
  if ¬ data.members.contains n then (.missingMember, data, 0)
  else (.ok, { data with members := data.members.erase n }, 1)

/-- Embedding of `setup` (lines 335-348). -/
def setup (m1 m2 m3 m4 : String) (channel : ℤ) (data : LedgerData) : LedgerData :=
  { data with
    members := [m1, m2, m3, m4].map fun m => pyReplace (pyLower m) "@" "",
    report_channel := some channel }

/-- The ledger with its payments restricted to current roster members
(Python `data["members"]` membership of `p["username"]`). -/
def rosterOnly (data : LedgerData) : LedgerData :=
  { data with
    payments := data.payments.filter fun p => data.members.contains p.username }

/-- The dates of the reporting week of `now`. -/
def weekDatesOf (now : ℤ) : List ℤ :=
  weekDates (get_week_range now).1 (get_week_range now).2

/-! ## Theorems -/

theorem pyWeekday_nonneg (d : ℤ) : 0 ≤ pyWeekday d :=
  Int.emod_nonneg _ (by norm_num)

theorem pyWeekday_lt (d : ℤ) : pyWeekday d < 7 :=
  Int.emod_lt_of_pos _ (by norm_num)

/-- C2: for every date `D`, `get_week_range` returns a pair with
`saturday = tuesday + 4`; on a Sunday it returns `(D-5, D-1)`; on
Tuesday…Saturday the Tuesday is `D - (weekday D - 1)` (so a Wednesday
gives `(D-1, D+3)`); and on a Monday it returns `(D-6, D-2)`. -/
theorem get_week_range_spec (D : ℤ) :
    (get_week_range D).2 = (get_week_range D).1 + 4
    ∧ (pyWeekday D = 6 → get_week_range D = (D - 5, D - 1))
    ∧ (1 ≤ pyWeekday D → pyWeekday D ≤ 5 →
        (get_week_range D).1 = D - (pyWeekday D - 1))
    ∧ (pyWeekday D = 2 → get_week_range D = (D - 1, D + 3))
    ∧ (pyWeekday D = 0 → get_week_range D = (D - 6, D - 2)) := by
  have h0 := pyWeekday_nonneg D
  have h7 := pyWeekday_lt D
  simp only [get_week_range]
  refine ⟨by trivial, ?_, ?_, ?_, ?_⟩
  · intro h
    simp only [h]
    norm_num
    omega
  · intro h1 h5
    have hne : pyWeekday D ≠ 6 := by omega
    simp only [if_neg hne, if_pos h1]
  · intro h
    simp only [h]
    norm_num
    omega
  · intro h
    simp only [h]
    norm_num
    omega

/-- Witness for `get_week_range_spec`: day 20737 (2026-10-11) is a Sunday,
and the computed week is (20732, 20736). -/
theorem get_week_range_spec_wit :
    pyWeekday 20737 = 6 ∧ get_week_range 20737 = (20737 - 5, 20737 - 1) :=
  ⟨by decide, (get_week_range_spec 20737).2.1 (by decide)⟩

/-- C8: `is_collection_day` holds exactly on Tuesday…Saturday and
`is_report_day` holds exactly on Sunday. -/
theorem collection_and_report_day_spec (d : ℤ) :
    (is_collection_day d = true ↔
      weekdayName d ∈
        (["Tuesday", "Wednesday", "Thursday", "Friday", "Saturday"] : List String))
    ∧ (is_report_day d = true ↔ weekdayName d = "Sunday") := by
  have h0 := pyWeekday_nonneg d
  have h7 := pyWeekday_lt d
  have hcase : pyWeekday d = 0 ∨ pyWeekday d = 1 ∨ pyWeekday d = 2 ∨
      pyWeekday d = 3 ∨ pyWeekday d = 4 ∨ pyWeekday d = 5 ∨ pyWeekday d = 6 := by
    omega
  rcases hcase with h | h | h | h | h | h | h <;>
    simp only [is_collection_day, is_report_day, weekdayName, h] <;> decide

theorem Dec.val_add (a b : Dec) : (Dec.add a b).val = a.val + b.val := by
  have hae : a.exp ≤ max a.exp b.exp := le_max_left _ _
  have hbe : b.exp ≤ max a.exp b.exp := le_max_right _ _
  have h1 : (10 : ℚ) ^ (max a.exp b.exp - a.exp) * 10 ^ a.exp =
      10 ^ max a.exp b.exp := pow_sub_mul_pow 10 hae
  have h2 : (10 : ℚ) ^ (max a.exp b.exp - b.exp) * 10 ^ b.exp =
      10 ^ max a.exp b.exp := pow_sub_mul_pow 10 hbe
  simp only [Dec.add, Dec.val]
  push_cast
  field_simp
  linear_combination ((a.num : ℚ) * 10 ^ b.exp) * h1 + ((b.num : ℚ) * 10 ^ a.exp) * h2

theorem Dec.pos_iff (a : Dec) : a.pos = true ↔ 0 < a.val := by
  have h : (0 : ℚ) < 10 ^ a.exp := by positivity
  simp only [Dec.pos, decide_eq_true_eq, Dec.val]
  rw [div_pos_iff]
  constructor
  · intro hn
    exact Or.inl ⟨by exact_mod_cast hn, h⟩
  · rintro (⟨hn, -⟩ | ⟨-, hb⟩)
    · exact_mod_cast hn
    · exact absurd h (not_lt.mpr hb.le)

theorem Dec.val_zero : Dec.zero.val = 0 := by
  simp [Dec.zero, Dec.val]

theorem scanAmount_none_iff (parts : List String) (k : ℕ) :
    scanAmount parts k = none ↔
      ∀ i, 1 ≤ i → i ≤ k → pyFloat (parts.getD i "") = none := by
  induction k with
  | zero =>
    constructor
    · intro _ i h1 h2
      omega
    · intro _
      rfl
  | succ k ih =>
    simp only [scanAmount]
    cases hf : pyFloat (parts.getD (k + 1) "") with
    | some v =>
      simp only []
      constructor
      · intro hc
        exact absurd hc (by simp)
      · intro h
        have hk := h (k + 1) (by omega) (by omega)
        rw [hk] at hf
        cases hf
    | none =>
      simp only []
      rw [ih]
      constructor
      · intro h i h1 h2
        rcases Nat.lt_succ_iff_lt_or_eq.mp (Nat.lt_succ_of_le h2) with hlt | heq
        · exact h i h1 (by omega)
        · exact heq ▸ hf
      · intro h i h1 h2
        exact h i h1 (by omega)

theorem scanAmount_some (parts : List String) (k : ℕ) :
    ∀ i v, scanAmount parts k = some (i, v) →
      1 ≤ i ∧ i ≤ k ∧ pyFloat (parts.getD i "") = some v ∧
        ∀ j, i < j → j ≤ k → pyFloat (parts.getD j "") = none := by
  induction k with
  | zero =>
    intro i v h
    cases h
  | succ k ih =>
    intro i v h
    simp only [scanAmount] at h
    cases hf : pyFloat (parts.getD (k + 1) "") with
    | some w =>
      rw [hf] at h
      simp only [Option.some.injEq, Prod.mk.injEq] at h
      obtain ⟨hi, hv⟩ := h
      subst hi
      subst hv
      exact ⟨by omega, le_refl _, hf, fun j hj1 hj2 => by omega⟩
    | none =>
      rw [hf] at h
      obtain ⟨h1, h2, h3, h4⟩ := ih i v h
      refine ⟨h1, by omega, h3, fun j hj1 hj2 => ?_⟩
      rcases Nat.lt_succ_iff_lt_or_eq.mp (Nat.lt_succ_of_le hj2) with hlt | heq
      · exact h4 j hj1 (by omega)
      · exact heq ▸ hf

/-- C3: `parse_payment_line` rejects unless the trimmed lowercased line
starts with `@` and, after stripping `" paid"`/`"paid"`, splits into at
least two tokens of which some token at index ≥ 1 parses as a float; in
the accepting case the amount is the rightmost such token and the
candidate name is the join of the tokens before it with the leading `@`
removed (then resolved against the roster); `"@Mary Ann 100"` against
`["mary ann"]` parses to `("mary ann", 100.0)`. -/
theorem parse_payment_line_spec (line : String) (members : List String) :
    (pyStartsWith (pyLower (pyStrip line)) "@" = false →
        parse_payment_line line members = (none, none))
    ∧ ((lineTokens line).length < 2 → parse_payment_line line members = (none, none))
    ∧ ((∀ i, 1 ≤ i → i < (lineTokens line).length →
          pyFloat ((lineTokens line).getD i "") = none) →
        parse_payment_line line members = (none, none))
    ∧ (∀ i v, pyStartsWith (pyLower (pyStrip line)) "@" = true →
        1 ≤ i → i < (lineTokens line).length →
        pyFloat ((lineTokens line).getD i "") = some v →
        (∀ j, i < j → j < (lineTokens line).length →
          pyFloat ((lineTokens line).getD j "") = none) →
        parse_payment_line line members =
          (some (resolveMember members
            (strTail (joinWith " " ((lineTokens line).take i)))), some v))
    ∧ parse_payment_line "@Mary Ann 100" ["mary ann"] =
        (some "mary ann", some ⟨100, 0⟩) := by
  refine ⟨?_, ?_, ?_, ?_, by decide⟩
  · intro h
    simp [parse_payment_line, candidateOf, h]
  · intro h
    by_cases hs : pyStartsWith (pyLower (pyStrip line)) "@" = true
    · simp [parse_payment_line, candidateOf, hs, h]
    · simp [parse_payment_line, candidateOf, eq_false_of_ne_true hs]
  · intro h
    by_cases hs : pyStartsWith (pyLower (pyStrip line)) "@" = true
    · by_cases hlen : (lineTokens line).length < 2
      · simp [parse_payment_line, candidateOf, hs, hlen]
      · have hnone : scanAmount (lineTokens line) ((lineTokens line).length - 1) = none := by
          rw [scanAmount_none_iff]
          intro i h1 h2
          exact h i h1 (by omega)
        simp [parse_payment_line, candidateOf, hs, hlen, hnone]
    · simp [parse_payment_line, candidateOf, eq_false_of_ne_true hs]
  · intro i v hs h1 h2 hv hmax
    have hlen : ¬ (lineTokens line).length < 2 := by omega
    have hscan : scanAmount (lineTokens line) ((lineTokens line).length - 1) = some (i, v) := by
      cases hsc : scanAmount (lineTokens line) ((lineTokens line).length - 1) with
      | none =>
        have := (scanAmount_none_iff _ _).mp hsc i h1 (by omega)
        rw [this] at hv
        cases hv
      | some p =>
        obtain ⟨i', v'⟩ := p
        obtain ⟨hi1, hi2, hiv, himax⟩ := scanAmount_some _ _ _ _ hsc
        have hii : i' = i := by
          rcases Nat.lt_trichotomy i' i with hlt | heq | hgt
          · have := himax i hlt (by omega)
            rw [this] at hv
            cases hv
          · exact heq
          · have := hmax i' hgt (by omega)
            rw [this] at hiv
            cases hiv
        subst hii
        rw [hiv] at hv
        cases hv
        rfl
    simp [parse_payment_line, candidateOf, hs, hlen, hscan]

/-- Witness for `parse_payment_line_spec`: the accepting branch at the
concrete line `"@Mary Ann 100"`, rightmost numeric token at index 2. -/
theorem parse_payment_line_spec_wit :
    parse_payment_line "@john 10 20 paid" ["john"] = (some "john 10", some ⟨20, 0⟩) := by
  have h := (parse_payment_line_spec "@john 10 20 paid" ["john"]).2.2.2.1 2 ⟨20, 0⟩
    (by decide) (by decide) (by decide) (by decide)
    (fun j hj1 hj2 => by
      have h3 : (lineTokens "@john 10 20 paid").length = 3 := by decide
      omega)
  exact h.trans (by decide)

/-- C4: whenever `parse_payment_line` extracts a candidate name and an
amount, a case-insensitive roster match returns the roster-cased member
name with the amount, and no match returns the raw lowercased candidate;
`"@unknownguy 20 paid"` against `["john"]` returns `("unknownguy", 20.0)`. -/
theorem parse_member_resolution_spec (line : String) (members : List String)
    (c : String) (v : Dec) (h : candidateOf line = some (c, v)) :
    ((∃ m ∈ members, pyLower m = pyLower c) →
        ∃ m, m ∈ members ∧ pyLower m = pyLower c ∧
          members.find? (fun m' => pyLower m' == pyLower c) = some m ∧
          parse_payment_line line members = (some m, some v))
    ∧ ((∀ m ∈ members, pyLower m ≠ pyLower c) →
        parse_payment_line line members = (some c, some v))
    ∧ parse_payment_line "@unknownguy 20 paid" ["john"] =
        (some "unknownguy", some ⟨20, 0⟩) := by
  refine ⟨?_, ?_, by decide⟩
  · intro hex
    have hsome : (members.find? (fun m' => pyLower m' == pyLower c)).isSome := by
      rw [List.find?_isSome]
      obtain ⟨m, hm, he⟩ := hex
      exact ⟨m, hm, by simp [he]⟩
    obtain ⟨m, hm⟩ := Option.isSome_iff_exists.mp hsome
    refine ⟨m, List.mem_of_find?_eq_some hm, ?_, hm, ?_⟩
    · have := List.find?_some hm
      simpa using this
    · simp [parse_payment_line, h, resolveMember, hm]
  · intro hnone
    have hn : members.find? (fun m' => pyLower m' == pyLower c) = none := by
      rw [List.find?_eq_none]
      intro m hm
      simp [hnone m hm]
    simp [parse_payment_line, h, resolveMember, hn]

/-- Witness for `parse_member_resolution_spec`: a roster-cased match, the
lowercased line `"@john 50 paid"` resolving to the roster entry `"John"`. -/
theorem parse_member_resolution_spec_wit :
    parse_payment_line "@john 50 paid" ["John"] = (some "John", some ⟨50, 0⟩) := by
  obtain ⟨m, -, -, hfind, hparse⟩ :=
    (parse_member_resolution_spec "@john 50 paid" ["John"] "john" ⟨50, 0⟩ (by decide)).1
      ⟨"John", by decide, by decide⟩
  have h2 : (["John"].find? fun m' => pyLower m' == pyLower "john") = some "John" := by
    decide
  rw [h2] at hfind
  have hm := Option.some.inj hfind
  rw [← hm] at hparse
  exact hparse

/-- C10: `parse_payment_line` returns either `(none, none)` or a pair in
which both the name and the amount are present, and the returned name may
be the empty string, as on the line `"@ 50"`. -/
theorem parse_shape_spec (line : String) (members : List String) :
    (parse_payment_line line members = (none, none) ∨
      ∃ n a, parse_payment_line line members = (some n, some a))
    ∧ parse_payment_line "@ 50" ["john"] = (some "", some ⟨50, 0⟩) := by
  refine ⟨?_, by decide⟩
  cases h : candidateOf line with
  | none =>
    left
    simp [parse_payment_line, h]
  | some p =>
    right
    exact ⟨resolveMember members p.1, p.2, by simp [parse_payment_line, h]⟩

/-- C9: `generate_weekly_report` is deterministic — two invocations on the
same ledger contents and the same `now` produce identical text (the
embedded generator is a pure function of the ledger and `now`; the source
reads nothing else). -/
theorem generate_weekly_report_deterministic (d1 d2 : LedgerData) (n1 n2 : ℤ)
    (hd : d1 = d2) (hn : n1 = n2) :
    generate_weekly_report d1 n1 = generate_weekly_report d2 n2 := by
  rw [hd, hn]

/-- Witness for `generate_weekly_report_deterministic` at a concrete
ledger and Sunday. -/
theorem generate_weekly_report_deterministic_wit :
    generate_weekly_report ⟨[], ["john"], none⟩ 20737 =
      generate_weekly_report ⟨[], ["john"], none⟩ 20737 :=
  generate_weekly_report_deterministic ⟨[], ["john"], none⟩ ⟨[], ["john"], none⟩
    20737 20737 rfl rfl

theorem toLower_toLower (c : Char) : Char.toLower (Char.toLower c) = Char.toLower c := by
  unfold Char.toLower
  by_cases h : 65 ≤ c.toNat ∧ c.toNat ≤ 90
  · rw [if_pos h]
    have hv : Nat.isValidChar (c.toNat + 32) := Or.inl (by omega)
    have ht : (Char.ofNat (c.toNat + 32)).toNat = c.toNat + 32 := by
      rw [Char.ofNat, dif_pos hv]
      rfl
    rw [if_neg]
    rw [ht]
    intro hc
    omega
  · rw [if_neg h, if_neg h]

theorem pyLower_pyLower (s : String) : pyLower (pyLower s) = pyLower s := by
  simp only [pyLower, List.map_map]
  congr 1
  exact List.map_congr_left fun c _ => toLower_toLower c

theorem mem_of_mem_listReplaceAux (pat : List Char) (fuel : ℕ) :
    ∀ l : List Char, ∀ c ∈ listReplaceAux pat [] fuel l, c ∈ l := by
  induction fuel with
  | zero =>
    intro l c hc
    exact hc
  | succ fuel ih =>
    intro l c hc
    cases l with
    | nil => exact absurd hc (by simp [listReplaceAux])
    | cons x rest =>
      simp only [listReplaceAux] at hc
      by_cases hp : pat ≠ [] ∧ pat.isPrefixOf (x :: rest)
      · rw [if_pos hp] at hc
        simp only [List.nil_append] at hc
        have := ih _ c hc
        exact List.mem_cons_of_mem x (List.mem_of_mem_drop this)
      · rw [if_neg hp] at hc
        rcases List.mem_cons.mp hc with h | h
        · exact h ▸ List.mem_cons_self x rest
        · exact List.mem_cons_of_mem x (ih rest c h)

theorem pyLower_eq_self (s : String) (h : ∀ c ∈ s.data, Char.toLower c = c) :
    pyLower s = s := by
  cases s with
  | mk l =>
    simp only [pyLower]
    congr 1
    calc l.map Char.toLower = l.map id := List.map_congr_left h
    _ = l := List.map_id l

/-- The name normalisation of the roster commands produces a string that
is fixed by `pyLower`. -/
theorem normalize_lower_fix (name : String) :
    pyLower (pyReplace (pyLower name) "@" "") = pyReplace (pyLower name) "@" "" := by
  apply pyLower_eq_self
  intro c hc
  have hmem : c ∈ (pyLower name).data :=
    mem_of_mem_listReplaceAux _ _ _ c hc
  simp only [pyLower, List.mem_map] at hmem
  obtain ⟨a, -, rfl⟩ := hmem
  exact toLower_toLower a

/-- Roster invariant: every stored member name is fixed by lowercasing.
`setup` establishes it and `addmember`/`removemember` preserve it. -/
theorem roster_normalized_setup (m1 m2 m3 m4 : String) (ch : ℤ) (data : LedgerData) :
    ∀ m ∈ (setup m1 m2 m3 m4 ch data).members, pyLower m = m := by
  intro m hm
  simp only [setup, List.mem_map] at hm
  obtain ⟨a, -, rfl⟩ := hm
  exact normalize_lower_fix a

theorem roster_normalized_addmember (name : String) (data : LedgerData)
    (h : ∀ m ∈ data.members, pyLower m = m) :
    ∀ m ∈ (addmember name data).2.1.members, pyLower m = m := by
  intro m hm
  simp only [addmember] at hm
  split at hm
  · exact h m hm
  · simp only [List.mem_append, List.mem_singleton] at hm
    rcases hm with hm | hm
    · exact h m hm
    · exact hm ▸ normalize_lower_fix name

theorem roster_normalized_removemember (name : String) (data : LedgerData)
    (h : ∀ m ∈ data.members, pyLower m = m) :
    ∀ m ∈ (removemember name data).2.1.members, pyLower m = m := by
  intro m hm
  simp only [removemember] at hm
  split at hm
  · exact h m hm
  · exact h m (List.mem_of_mem_erase hm)

/-- C7: under the roster invariant maintained by the commands (all stored
names lowercase), the duplicate test of `addmember` is exactly
case-insensitive presence of the normalised name; a duplicate add fails
and leaves the ledger untouched with no save, and a fresh add appends the
normalised name at the end with one save. -/
theorem addmember_spec (name : String) (data : LedgerData)
    (hnorm : ∀ m ∈ data.members, pyLower m = m) :
    (data.members.contains (pyReplace (pyLower name) "@" "") = true ↔
      ∃ m ∈ data.members, pyLower m = pyLower (pyReplace (pyLower name) "@" ""))
    ∧ ((∃ m ∈ data.members, pyLower m = pyLower (pyReplace (pyLower name) "@" "")) →
        addmember name data = (.duplicateMember, data, 0))
    ∧ ((∀ m ∈ data.members, pyLower m ≠ pyLower (pyReplace (pyLower name) "@" "")) →
        addmember name data =
          (.ok, { data with
                  members := data.members ++ [pyReplace (pyLower name) "@" ""] }, 1)) := by
  have hn : pyLower (pyReplace (pyLower name) "@" "") = pyReplace (pyLower name) "@" "" :=
    normalize_lower_fix name
  have hiff : data.members.contains (pyReplace (pyLower name) "@" "") = true ↔
      ∃ m ∈ data.members, pyLower m = pyLower (pyReplace (pyLower name) "@" "") := by
    rw [List.contains_iff_exists_mem_beq]
    constructor
    · rintro ⟨m, hm, hbeq⟩
      exact ⟨m, hm, by rw [eq_of_beq hbeq]⟩
    · rintro ⟨m, hm, he⟩
      refine ⟨m, hm, ?_⟩
      have : m = pyReplace (pyLower name) "@" "" := by
        rw [← hnorm m hm, he, hn]
      exact this ▸ beq_self_eq_true m
  refine ⟨hiff, ?_, ?_⟩
  · intro hex
    have hc := hiff.mpr hex
    simp only [addmember, hc, if_true]
  · intro hall
    have hc : data.members.contains (pyReplace (pyLower name) "@" "") = false := by
      rcases Bool.eq_false_or_eq_true
        (data.members.contains (pyReplace (pyLower name) "@" "")) with h | h
      · obtain ⟨m, hm, he⟩ := hiff.mp h
        exact absurd he (hall m hm)
      · exact h
    simp only [addmember, hc]
    rfl

/-- Witness for `addmember_spec`: `"@John"` against roster `["john"]` is a
duplicate, and the same add against `["mary"]` appends `"john"`. -/
theorem addmember_spec_wit :
    addmember "@John" ⟨[], ["john"], none⟩ = (.duplicateMember, ⟨[], ["john"], none⟩, 0)
    ∧ addmember "@John" ⟨[], ["mary"], none⟩ =
        (.ok, ⟨[], ["mary", "john"], none⟩, 1) := by
  constructor
  · exact (addmember_spec "@John" ⟨[], ["john"], none⟩ (by decide)).2.1
      ⟨"john", by decide, by decide⟩
  · have h := (addmember_spec "@John" ⟨[], ["mary"], none⟩ (by decide)).2.2
      (by decide)
    exact h.trans (by decide)

theorem lineStep_eq (members : List String) (now : ℤ) (timeStr author : String)
    (st : BatchState) (line : String) :
    (lineStep members now timeStr author st line).data.payments =
        st.data.payments ++ (linePayment? members now timeStr author line).toList
    ∧ (lineStep members now timeStr author st line).data.members = st.data.members
    ∧ (lineStep members now timeStr author st line).data.report_channel =
        st.data.report_channel
    ∧ (lineStep members now timeStr author st line).recorded_payments =
        st.recorded_payments ++ (linePayment? members now timeStr author line).toList
    ∧ (lineStep members now timeStr author st line).errors =
        st.errors ++ (lineWarn? members line).toList := by
  simp only [lineStep, linePayment?, lineWarn?]
  by_cases hs : pyStartsWith (pyStrip line) "@" = true
  · simp only [hs, not_true_eq_false, if_false]
    rcases hp : parse_payment_line (pyStrip line) members with ⟨uo, ao⟩
    cases uo with
    | none => simp
    | some u =>
      cases ao with
      | none => simp
      | some a =>
        cases hf : members.find? fun m => pyLower m == pyLower u with
        | none => simp [hf]
        | some m =>
          by_cases hm : (m == "") = true
          · simp [hf, hm]
          · simp [hf, hm]
  · have hs' : pyStartsWith (pyStrip line) "@" = false := by
      cases h : pyStartsWith (pyStrip line) "@"
      · rfl
      · exact absurd h hs
    simp [hs']

theorem lineFold_eq (members : List String) (now : ℤ) (timeStr author : String)
    (lines : List String) :
    ∀ st : BatchState,
    (lines.foldl (lineStep members now timeStr author) st).data.payments =
        st.data.payments
          ++ (lines.map fun l => (linePayment? members now timeStr author l).toList).flatten
    ∧ (lines.foldl (lineStep members now timeStr author) st).data.members =
        st.data.members
    ∧ (lines.foldl (lineStep members now timeStr author) st).recorded_payments =
        st.recorded_payments
          ++ (lines.map fun l => (linePayment? members now timeStr author l).toList).flatten
    ∧ (lines.foldl (lineStep members now timeStr author) st).errors =
        st.errors ++ (lines.map fun l => (lineWarn? members l).toList).flatten := by
  induction lines with
  | nil =>
    intro st
    simp
  | cons l ls ih =>
    intro st
    simp only [List.foldl_cons, List.map_cons, List.flatten_cons]
    obtain ⟨h1, h2, h3, h4⟩ := ih (lineStep members now timeStr author st l)
    obtain ⟨g1, g2, -, g4, g5⟩ := lineStep_eq members now timeStr author st l
    refine ⟨?_, ?_, ?_, ?_⟩
    · rw [h1, g1, List.append_assoc]
    · rw [h2, g2]
    · rw [h3, g4, List.append_assoc]
    · rw [h4, g5, List.append_assoc]

theorem length_flatten_toList {α β : Type} (f : α → Option β) (l : List α) :
    ((l.map fun x => (f x).toList).flatten).length =
      (l.filter fun x => (f x).isSome).length := by
  induction l with
  | nil => rfl
  | cons x xs ih =>
    simp only [List.map_cons, List.flatten_cons, List.length_append, ih, List.filter_cons]
    cases hf : f x <;> simp [Nat.add_comm]

/-- C5 (amended): on a collection day, a batch appends one record per
parseable line whose first case-insensitive roster match is a non-empty
member name, and one warning per parseable line with no roster match or
whose matched member is the empty string (the `if not member_match:`
guard at line 246 is Python truthiness, falsy on `None` and on `""`);
the ledger is saved exactly once when at least one record was produced
and not at all otherwise; the 3-line example with one unmatched name
yields 2 records, 1 warning and a single save. -/
theorem on_message_batch_spec (content : String) (data0 : LedgerData) (now : ℤ)
    (timeStr author : String)
    (hgate : ((pyStrip content).data.contains '@'
        && (pyStrip content).data.any Char.isDigit) = true)
    (hday : is_collection_day now = true) :
    ((on_message content data0 now timeStr author).recorded_payments.length =
      ((splitNl (pyStrip content)).filter
        (fun l => (linePayment? data0.members now timeStr author l).isSome)).length)
    ∧ ((on_message content data0 now timeStr author).errors.length =
      ((splitNl (pyStrip content)).filter
        (fun l => (lineWarn? data0.members l).isSome)).length)
    ∧ ((on_message content data0 now timeStr author).data.payments =
        data0.payments ++ (on_message content data0 now timeStr author).recorded_payments)
    ∧ ((on_message content data0 now timeStr author).data.members = data0.members)
    ∧ ((on_message content data0 now timeStr author).saves =
        if (on_message content data0 now timeStr author).recorded_payments.isEmpty
        then 0 else 1)
    ∧ (∀ l : String, (linePayment? data0.members now timeStr author l).isSome = true ↔
        (pyStartsWith (pyStrip l) "@" = true ∧
          ∃ u amt, parse_payment_line (pyStrip l) data0.members = (some u, some amt) ∧
            ∃ m, m ∈ data0.members ∧ pyLower m = pyLower u ∧
              data0.members.find? (fun m' => pyLower m' == pyLower u) = some m ∧ m ≠ ""))
    ∧ (∀ l : String, (lineWarn? data0.members l).isSome = true ↔
        (pyStartsWith (pyStrip l) "@" = true ∧
          ∃ u amt, parse_payment_line (pyStrip l) data0.members = (some u, some amt) ∧
            (data0.members.find? (fun m' => pyLower m' == pyLower u) = none ∨
              data0.members.find? (fun m' => pyLower m' == pyLower u) = some "")))
    ∧ ((on_message "@john 10 paid\n@mary 20 paid\n@ghost 5 paid"
          ⟨[], ["john", "mary"], none⟩ 20732 "12:00:00" "boss").recorded_payments.length = 2
        ∧ (on_message "@john 10 paid\n@mary 20 paid\n@ghost 5 paid"
            ⟨[], ["john", "mary"], none⟩ 20732 "12:00:00" "boss").errors.length = 1
        ∧ (on_message "@john 10 paid\n@mary 20 paid\n@ghost 5 paid"
            ⟨[], ["john", "mary"], none⟩ 20732 "12:00:00" "boss").saves = 1) := by
  have hmain : on_message content data0 now timeStr author =
      ⟨((splitNl (pyStrip content)).foldl
          (lineStep data0.members now timeStr author) ⟨data0, [], []⟩).data,
        ((splitNl (pyStrip content)).foldl
          (lineStep data0.members now timeStr author) ⟨data0, [], []⟩).recorded_payments,
        ((splitNl (pyStrip content)).foldl
          (lineStep data0.members now timeStr author) ⟨data0, [], []⟩).errors,
        if ((splitNl (pyStrip content)).foldl
            (lineStep data0.members now timeStr author)
            ⟨data0, [], []⟩).recorded_payments.isEmpty then 0 else 1⟩ := by
    simp only [on_message, hgate, hday, not_true_eq_false, if_false]
  obtain ⟨f1, f2, f3, f4⟩ :=
    lineFold_eq data0.members now timeStr author (splitNl (pyStrip content)) ⟨data0, [], []⟩
  refine ⟨?_, ?_, ?_, ?_, ?_, ?_, ?_, by decide, by decide, by decide⟩
  · rw [hmain]
    simp only [f3, List.nil_append]
    exact length_flatten_toList _ _
  · rw [hmain]
    simp only [f4, List.nil_append]
    exact length_flatten_toList _ _
  · rw [hmain]
    simp only [f1, f3, List.nil_append]
  · rw [hmain]
    simp only [f2]
  · rw [hmain]
  · intro l
    simp only [linePayment?]
    by_cases hs : pyStartsWith (pyStrip l) "@" = true
    · simp only [hs, not_true_eq_false, if_false, true_and]
      rcases hp : parse_payment_line (pyStrip l) data0.members with ⟨uo, ao⟩
      cases uo with
      | none =>
        simp only [Option.isSome_none]
        constructor
        · intro h
          cases h
        · rintro ⟨u, amt, heq, -⟩
          simp at heq
      | some u =>
        cases ao with
        | none =>
          simp only [Option.isSome_none]
          constructor
          · intro h
            cases h
          · rintro ⟨u', amt, heq, -⟩
            simp at heq
        | some a =>
          cases hf : data0.members.find? fun m => pyLower m == pyLower u with
          | none =>
            simp only [hf, Option.isSome_none]
            constructor
            · intro h
              cases h
            · rintro ⟨u', amt, heq, m', -, -, hf', -⟩
              simp only [Prod.mk.injEq, Option.some.injEq] at heq
              obtain ⟨hu, -⟩ := heq
              rw [← hu, hf] at hf'
              cases hf'
          | some m =>
            by_cases hm : (m == "") = true
            · simp only [hf, hm, if_true, Option.isSome_none]
              constructor
              · intro h
                cases h
              · rintro ⟨u', amt, heq, m', -, -, hf', hne'⟩
                simp only [Prod.mk.injEq, Option.some.injEq] at heq
                obtain ⟨hu, -⟩ := heq
                rw [← hu, hf] at hf'
                have hmm : m' = m := (Option.some.inj hf').symm
                exact absurd (hmm.trans (eq_of_beq hm)) hne'
            · have hm' : (m == "") = false := by
                cases hb : (m == "")
                · rfl
                · exact absurd hb hm
              simp only [hf, hm', Bool.false_eq_true, if_false, Option.isSome_some,
                true_iff]
              refine ⟨u, a, rfl, m, List.mem_of_find?_eq_some hf, ?_, hf, ?_⟩
              · have := List.find?_some hf
                simpa using this
              · intro hcontra
                rw [hcontra] at hm'
                simp at hm'
    · have hs' : pyStartsWith (pyStrip l) "@" = false := by
        cases h : pyStartsWith (pyStrip l) "@"
        · rfl
        · exact absurd h hs
      simp [hs']
  · intro l
    simp only [lineWarn?]
    by_cases hs : pyStartsWith (pyStrip l) "@" = true
    · simp only [hs, not_true_eq_false, if_false, true_and]
      rcases hp : parse_payment_line (pyStrip l) data0.members with ⟨uo, ao⟩
      cases uo with
      | none =>
        simp only [Option.isSome_none]
        constructor
        · intro h
          cases h
        · rintro ⟨u, amt, heq, -⟩
          simp at heq
      | some u =>
        cases ao with
        | none =>
          simp only [Option.isSome_none]
          constructor
          · intro h
            cases h
          · rintro ⟨u', amt, heq, -⟩
            simp at heq
        | some a =>
          cases hf : data0.members.find? fun m => pyLower m == pyLower u with
          | none =>
            simp only [hf, Option.isSome_some, true_iff]
            exact ⟨u, a, rfl, Or.inl hf⟩
          | some m =>
            by_cases hm : (m == "") = true
            · simp only [hf, hm, if_true, Option.isSome_some, true_iff]
              refine ⟨u, a, rfl, Or.inr ?_⟩
              rw [hf]
              exact congrArg some (eq_of_beq hm)
            · have hm' : (m == "") = false := by
                cases hb : (m == "")
                · rfl
                · exact absurd hb hm
              simp only [hf, hm', Bool.false_eq_true, if_false, Option.isSome_none]
              constructor
              · intro h
                cases h
              · rintro ⟨u', amt, heq, hdisj⟩
                simp only [Prod.mk.injEq, Option.some.injEq] at heq
                obtain ⟨hu, -⟩ := heq
                rw [← hu] at hdisj
                rcases hdisj with hnone | hempty
                · rw [hf] at hnone
                  cases hnone
                · rw [hf] at hempty
                  have hme : m = "" := Option.some.inj hempty
                  rw [hme] at hm'
                  simp at hm'
    · have hs' : pyStartsWith (pyStrip l) "@" = false := by
        cases h : pyStartsWith (pyStrip l) "@"
        · rfl
        · exact absurd h hs
      simp [hs']

/-- Witness for `on_message_batch_spec`: the concrete 3-line batch on a
Tuesday with one unmatched member. -/
theorem on_message_batch_spec_wit :
    (on_message "@john 10 paid\n@mary 20 paid\n@ghost 5 paid"
        ⟨[], ["john", "mary"], none⟩ 20732 "12:00:00" "boss").recorded_payments.length = 2
    ∧ (on_message "@john 10 paid\n@mary 20 paid\n@ghost 5 paid"
        ⟨[], ["john", "mary"], none⟩ 20732 "12:00:00" "boss").errors.length = 1
    ∧ (on_message "@john 10 paid\n@mary 20 paid\n@ghost 5 paid"
        ⟨[], ["john", "mary"], none⟩ 20732 "12:00:00" "boss").saves = 1 :=
  (on_message_batch_spec "@john 10 paid\n@mary 20 paid\n@ghost 5 paid"
    ⟨[], ["john", "mary"], none⟩ 20732 "12:00:00" "boss" (by decide) (by decide)).2.2.2.2.2.2.2

/-- C5 counterexample: the claim is false as stated.  `/addmember @`
stores the empty name, so the roster `[""]` is reachable; on the
collection day 20732 the parseable line `"@ 50"` has a candidate name
that matches that roster case-insensitively, yet the source's
`if not member_match:` guard (line 246) treats the matched empty string
as falsy: one warning is emitted, no record is appended and the ledger
is never saved. -/
theorem on_message_empty_member_cex :
    addmember "@" ⟨[], [], none⟩ = (.ok, ⟨[], [""], none⟩, 1)
    ∧ parse_payment_line "@ 50" [""] = (some "", some ⟨50, 0⟩)
    ∧ ("" ∈ ([""] : List String) ∧ pyLower "" = pyLower "")
    ∧ is_collection_day 20732 = true
    ∧ (on_message "@ 50" ⟨[], [""], none⟩ 20732 "12:00:00" "boss").recorded_payments = []
    ∧ (on_message "@ 50" ⟨[], [""], none⟩ 20732 "12:00:00" "boss").errors =
        ["⚠️ **@** not in member list"]
    ∧ (on_message "@ 50" ⟨[], [""], none⟩ 20732 "12:00:00" "boss").saves = 0 :=
  ⟨by decide, by decide, ⟨by decide, rfl⟩, by decide, by decide, by decide, by decide⟩

theorem concatStr_nil : concatStr [] = "" := rfl

theorem concatStr_cons (x : String) (l : List String) :
    concatStr (x :: l) = x ++ concatStr l := rfl

theorem substrOf_appL (x y a : String) (h : substrOf x y) : substrOf x (a ++ y) := by
  obtain ⟨u, v, rfl⟩ := h
  exact ⟨a ++ u, v, by simp [String.append_assoc]⟩

theorem substrOf_appR (x y b : String) (h : substrOf x y) : substrOf x (y ++ b) := by
  obtain ⟨u, v, rfl⟩ := h
  exact ⟨u, v ++ b, by simp [String.append_assoc]⟩

theorem substrOf_refl (x : String) : substrOf x x :=
  ⟨"", "", by rw [String.empty_append, String.append_empty]⟩

theorem substrOf_concatStr {α : Type} (f : α → String) (l : List α) (x : α)
    (hx : x ∈ l) : substrOf (f x) (concatStr (l.map f)) := by
  induction l with
  | nil => cases hx
  | cons y ys ih =>
    rw [List.map_cons, concatStr_cons]
    rcases List.mem_cons.mp hx with h | h
    · exact substrOf_appR _ _ _ (h ▸ substrOf_refl (f x))
    · exact substrOf_appL _ _ _ (ih h)

theorem foldl_append_str {α : Type} (f : α → String) (l : List α) :
    ∀ r : String, l.foldl (fun acc x => acc ++ f x) r = r ++ concatStr (l.map f) := by
  induction l with
  | nil =>
    intro r
    simp [concatStr_nil]
  | cons x xs ih =>
    intro r
    rw [List.foldl_cons, ih, List.map_cons, concatStr_cons, String.append_assoc]

theorem payFold_eq (dn : String) (ps : List Payment) :
    ∀ (st : RState) (dl : Dec),
    ps.foldl (payStep dn) (st, dl) =
      (⟨st.report ++ concatStr (ps.map payLine),
        addList st.week_total ps,
        (ps.foldl (tallyStep dn) (st.mt, st.md)).1,
        (ps.foldl (tallyStep dn) (st.mt, st.md)).2⟩,
       addList dl ps) := by
  induction ps with
  | nil =>
    intro st dl
    simp [concatStr_nil, addList]
  | cons p ps ih =>
    intro st dl
    simp only [List.foldl_cons, List.map_cons, concatStr_cons]
    rw [show payStep dn (st, dl) p =
      (⟨st.report ++ payLine p, st.week_total.add p.amount,
        (tallyStep dn (st.mt, st.md) p).1, (tallyStep dn (st.mt, st.md) p).2⟩,
       dl.add p.amount) from rfl]
    rw [ih]
    simp only [addList, List.foldl_cons, String.append_assoc]

theorem dayStep_eq (payments : List Payment) (st : RState) (d : ℤ) :
    dayStep payments st d =
      ⟨st.report ++ dayText payments d,
       addList st.week_total (daySelect payments d),
       ((daySelect payments d).foldl (tallyStep (weekdayName d)) (st.mt, st.md)).1,
       ((daySelect payments d).foldl (tallyStep (weekdayName d)) (st.mt, st.md)).2⟩ := by
  simp only [dayStep, dayText, daySelect]
  cases he : (payments.filter fun p => p.date == dateISO d).isEmpty with
  | true =>
    have hnil : payments.filter (fun p => p.date == dateISO d) = [] :=
      List.isEmpty_iff.mp he
    simp [hnil, addList, String.append_assoc]
  | false =>
    simp only [he, if_false, Bool.false_eq_true]
    rw [payFold_eq]
    simp only [addList, String.append_assoc]

theorem daysFold_eq (payments : List Payment) (dates : List ℤ) :
    ∀ st : RState,
    dates.foldl (dayStep payments) st =
      ⟨st.report ++ concatStr (dates.map (dayText payments)),
       weekTotalFold payments dates st.week_total,
       (weekTally payments dates (st.mt, st.md)).1,
       (weekTally payments dates (st.mt, st.md)).2⟩ := by
  induction dates with
  | nil =>
    intro st
    simp [concatStr_nil, weekTotalFold, weekTally]
  | cons d ds ih =>
    intro st
    simp only [List.foldl_cons, List.map_cons, concatStr_cons]
    rw [dayStep_eq, ih]
    simp only [weekTotalFold, weekTally, List.foldl_cons, String.append_assoc]

/-- The single-pass report builder decomposes into header, day sections,
member summary and footer. -/
theorem report_decomp (data : LedgerData) (now : ℤ) :
    generate_weekly_report data now =
      reportHeader now
      ++ concatStr ((weekDates (get_week_range now).1 (get_week_range now).2).map
          (dayText data.payments))
      ++ (summarySep ++ (summaryText data now ++ reportFooter (weekTotalOf data now))) := by
  simp only [generate_weekly_report, summaryText, reportFooter, summarySep, reportHeader,
    mtOf, mdOf, weekTotalOf]
  rw [daysFold_eq]
  simp only [foldl_append_str, String.append_assoc]

theorem dictContains_adjust {α : Type} (l : List (String × α)) (k : String) (f : α → α)
    (m : String) : dictContains (dictAdjust l k f) m = dictContains l m := by
  simp only [dictContains, dictAdjust, List.any_map]
  congr 1
  funext x
  by_cases hx : x.1 = k <;> simp [hx]

theorem dictGet?_adjust_ne {α : Type} (k m : String) (f : α → α) (hne : k ≠ m) :
    ∀ l : List (String × α), dictGet? (dictAdjust l k f) m = dictGet? l m := by
  intro l
  induction l with
  | nil => rfl
  | cons x xs ih =>
    have hadj : dictAdjust (x :: xs) k f
        = (if x.1 == k then (x.1, f x.2) else x) :: dictAdjust xs k f := by
      simp [dictAdjust]
    rw [hadj]
    by_cases hxk : x.1 = k
    · have hxm : ¬ x.1 = m := fun h => hne (by rw [← hxk, h])
      simp only [dictGet?, hxk, beq_self_eq_true, if_true]
      simp [hxm, ih, hne]
    · have hmk : ¬ m = k := fun h => hne h.symm
      by_cases hxm : x.1 = m
      · simp [dictGet?, hxm, hxk, hmk]
      · simp [dictGet?, hxm, hxk, ih]

theorem tallyStep_keys (dn : String)
    (acc : List (String × Dec) × List (String × List String)) (p : Payment) (k : String) :
    dictContains (tallyStep dn acc p).1 k = dictContains acc.1 k := by
  simp only [tallyStep]
  split
  · exact dictContains_adjust _ _ _ _
  · rfl

theorem tallyStep_not_roster (dn : String)
    (acc : List (String × Dec) × List (String × List String)) (p : Payment)
    (h : dictContains acc.1 p.username = false) : tallyStep dn acc p = acc := by
  simp [tallyStep, h]

theorem tallyStep_get_ne (dn : String)
    (acc : List (String × Dec) × List (String × List String)) (p : Payment) (m : String)
    (hne : p.username ≠ m) :
    dictGet? (tallyStep dn acc p).1 m = dictGet? acc.1 m
    ∧ dictGet? (tallyStep dn acc p).2 m = dictGet? acc.2 m := by
  simp only [tallyStep]
  constructor
  · split
    · exact dictGet?_adjust_ne _ _ _ hne _
    · rfl
  · split
    · exact dictGet?_adjust_ne _ _ _ hne _
    · rfl

theorem tallyFold_keys (dn : String) (ps : List Payment) :
    ∀ acc k, dictContains ((ps.foldl (tallyStep dn) acc).1) k = dictContains acc.1 k := by
  induction ps with
  | nil => intro acc k; rfl
  | cons p ps ih =>
    intro acc k
    rw [List.foldl_cons, ih, tallyStep_keys]

theorem tallyFold_get_ne (dn : String) (ps : List Payment) (m : String)
    (h : ∀ p ∈ ps, p.username ≠ m) :
    ∀ acc, dictGet? ((ps.foldl (tallyStep dn) acc).1) m = dictGet? acc.1 m
      ∧ dictGet? ((ps.foldl (tallyStep dn) acc).2) m = dictGet? acc.2 m := by
  induction ps with
  | nil => intro acc; exact ⟨rfl, rfl⟩
  | cons p ps ih =>
    intro acc
    rw [List.foldl_cons]
    have hstep := tallyStep_get_ne dn acc p m (h p (List.mem_cons_self p ps))
    have hrest := ih (fun q hq => h q (List.mem_cons_of_mem p hq)) (tallyStep dn acc p)
    exact ⟨hrest.1.trans hstep.1, hrest.2.trans hstep.2⟩

theorem tallyFold_filter (dn : String) (R : String → Bool) (ps : List Payment) :
    ∀ acc, (∀ k, dictContains acc.1 k = R k) →
      ps.foldl (tallyStep dn) acc =
        (ps.filter fun p => R p.username).foldl (tallyStep dn) acc := by
  induction ps with
  | nil =>
    intro acc _
    rfl
  | cons p ps ih =>
    intro acc h
    rw [List.foldl_cons, List.filter_cons]
    cases hR : R p.username with
    | false =>
      have hstep : tallyStep dn acc p = acc :=
        tallyStep_not_roster _ _ _ ((h p.username).trans hR)
      rw [hstep]
      simp only [Bool.false_eq_true, if_false]
      exact ih acc h
    | true =>
      simp only [if_true]
      rw [List.foldl_cons]
      exact ih (tallyStep dn acc p) (fun k => (tallyStep_keys dn acc p k).trans (h k))

theorem weekTally_nil (dates : List ℤ) :
    ∀ acc, weekTally [] dates acc = acc := by
  induction dates with
  | nil => intro acc; rfl
  | cons d ds ih =>
    intro acc
    simp only [weekTally, List.foldl_cons] at ih ⊢
    exact ih acc

theorem weekTally_keys (payments : List Payment) (dates : List ℤ) :
    ∀ acc k, dictContains ((weekTally payments dates acc).1) k = dictContains acc.1 k := by
  induction dates with
  | nil => intro acc k; rfl
  | cons d ds ih =>
    intro acc k
    simp only [weekTally, List.foldl_cons] at ih ⊢
    rw [ih, tallyFold_keys]

theorem daySelect_filter_comm (payments : List Payment) (d : ℤ) (R : String → Bool) :
    daySelect (payments.filter fun p => R p.username) d =
      (daySelect payments d).filter fun p => R p.username := by
  simp only [daySelect, List.filter_filter]
  apply List.filter_congr
  intro p _
  exact Bool.and_comm _ _

theorem weekTally_filter (payments : List Payment) (dates : List ℤ) (R : String → Bool) :
    ∀ acc, (∀ k, dictContains acc.1 k = R k) →
      weekTally payments dates acc =
        weekTally (payments.filter fun p => R p.username) dates acc := by
  induction dates with
  | nil =>
    intro acc _
    rfl
  | cons d ds ih =>
    intro acc h
    simp only [weekTally, List.foldl_cons] at ih ⊢
    rw [daySelect_filter_comm, ← tallyFold_filter _ _ _ _ h]
    exact ih _ (fun k => (tallyFold_keys _ _ _ _).trans (h k))

theorem mem_daySelect (payments : List Payment) (d : ℤ) (p : Payment) :
    p ∈ daySelect payments d ↔ p ∈ payments ∧ p.date = dateISO d := by
  simp [daySelect, List.mem_filter]

theorem weekTally_get_ne (payments : List Payment) (dates : List ℤ) (m : String)
    (hm : ∀ p ∈ payments, p.date ∈ dates.map dateISO → p.username ≠ m) :
    ∀ acc, dictGet? ((weekTally payments dates acc).1) m = dictGet? acc.1 m
      ∧ dictGet? ((weekTally payments dates acc).2) m = dictGet? acc.2 m := by
  induction dates with
  | nil => intro acc; exact ⟨rfl, rfl⟩
  | cons d ds ih =>
    intro acc
    simp only [weekTally, List.foldl_cons] at ih ⊢
    have hday : ∀ p ∈ daySelect payments d, p.username ≠ m := by
      intro p hp
      obtain ⟨hmem, hdate⟩ := (mem_daySelect payments d p).mp hp
      exact hm p hmem (by rw [List.map_cons]; exact hdate ▸ List.mem_cons_self _ _)
    have hds : ∀ p ∈ payments, p.date ∈ ds.map dateISO → p.username ≠ m := by
      intro p hp hd
      exact hm p hp (by rw [List.map_cons]; exact List.mem_cons_of_mem _ hd)
    have hstep := tallyFold_get_ne (weekdayName d) (daySelect payments d) m hday acc
    have hrest := (ih hds) ((daySelect payments d).foldl (tallyStep (weekdayName d)) acc)
    exact ⟨hrest.1.trans hstep.1, hrest.2.trans hstep.2⟩

theorem bool_ext {a b : Bool} (h : a = true ↔ b = true) : a = b := by
  cases a <;> cases b <;> simp_all

theorem dictContains_map_const {α : Type} (v : α) (ds : List String) (u : String) :
    dictContains (ds.map fun k => (k, v)) u = ds.contains u := by
  apply bool_ext
  simp only [dictContains, List.any_eq_true, List.mem_map,
    List.contains_iff_exists_mem_beq, beq_iff_eq]
  constructor
  · rintro ⟨q, ⟨k, hk, rfl⟩, he⟩
    exact ⟨k, hk, he.symm⟩
  · rintro ⟨k, hk, he⟩
    exact ⟨(k, v), ⟨k, hk, rfl⟩, he.symm⟩

theorem mem_pyDedup_go (u : String) (ks : List String) :
    ∀ acc : List String,
      u ∈ ks.foldl (fun a k => if a.contains k then a else a ++ [k]) acc ↔
        u ∈ acc ∨ u ∈ ks := by
  induction ks with
  | nil =>
    intro acc
    simp
  | cons k ks ih =>
    intro acc
    rw [List.foldl_cons]
    by_cases hc : acc.contains k = true
    · rw [if_pos hc, ih]
      have hk : k ∈ acc := by
        obtain ⟨k', hk', he⟩ := List.contains_iff_exists_mem_beq.mp hc
        exact (eq_of_beq he) ▸ hk'
      simp only [List.mem_cons]
      constructor
      · rintro (h | h)
        · exact Or.inl h
        · exact Or.inr (Or.inr h)
      · rintro (h | h | h)
        · exact Or.inl h
        · exact Or.inl (h ▸ hk)
        · exact Or.inr h
    · rw [if_neg hc, ih]
      simp only [List.mem_append, List.mem_cons, List.mem_singleton]
      tauto

theorem mem_pyDedup (ks : List String) (u : String) : u ∈ pyDedup ks ↔ u ∈ ks := by
  have h := mem_pyDedup_go u ks []
  simpa [pyDedup] using h

theorem dictFromKeys_go {α : Type} (v : α) (ks : List String) :
    ∀ acc : List String,
      ks.foldl (fun a k => dictInsert a k v) (acc.map fun k => (k, v)) =
        (ks.foldl (fun a k => if a.contains k then a else a ++ [k]) acc).map
          fun k => (k, v) := by
  induction ks with
  | nil =>
    intro acc
    rfl
  | cons k ks ih =>
    intro acc
    rw [List.foldl_cons, List.foldl_cons]
    by_cases hc : acc.contains k = true
    · have hins : dictInsert (acc.map fun k => (k, v)) k v = acc.map fun k => (k, v) := by
        simp only [dictInsert, dictContains_map_const, hc, if_true, List.map_map]
        apply List.map_congr_left
        intro x _
        by_cases hx : x = k
        · simp [hx]
        · simp [hx]
      rw [hins, if_pos hc, ih]
    · have hins : dictInsert (acc.map fun k => (k, v)) k v =
          (acc ++ [k]).map fun k => (k, v) := by
        simp only [dictInsert, dictContains_map_const, hc, List.map_append, List.map_cons,
          List.map_nil]
        rfl
      rw [hins, if_neg hc, ih]

theorem dictFromKeys_eq {α : Type} (v : α) (ks : List String) :
    dictFromKeys ks v = (pyDedup ks).map fun k => (k, v) := by
  have h := dictFromKeys_go v ks []
  simpa [dictFromKeys, pyDedup] using h

theorem dictContains_fromKeys {α : Type} (v : α) (ks : List String) (u : String) :
    dictContains (dictFromKeys ks v) u = ks.contains u := by
  rw [dictFromKeys_eq, dictContains_map_const]
  apply bool_ext
  simp only [List.contains_iff_exists_mem_beq, beq_iff_eq]
  constructor
  · rintro ⟨k, hk, rfl⟩
    exact ⟨u, (mem_pyDedup ks u).mp hk, rfl⟩
  · rintro ⟨k, hk, rfl⟩
    exact ⟨u, (mem_pyDedup ks u).mpr hk, rfl⟩

theorem dictGet?_map_const {α : Type} (v : α) (ds : List String) (m : String) :
    dictGet? (ds.map fun k => (k, v)) m = if m ∈ ds then some v else none := by
  induction ds with
  | nil => simp [dictGet?]
  | cons k ks ih =>
    simp only [List.map_cons, dictGet?]
    by_cases hk : k = m
    · simp [hk]
    · have hmk : ¬ m = k := fun h => hk h.symm
      simp only [hk, if_false, ih, List.mem_cons, Bool.false_eq_true]
      by_cases hm : m ∈ ks
      · simp [hm]
      · simp [hm, hmk, hk]

theorem mem_of_dictGet? {α : Type} (m : String) (v : α) :
    ∀ l : List (String × α), dictGet? l m = some v → (m, v) ∈ l := by
  intro l
  induction l with
  | nil =>
    intro h
    cases h
  | cons q l ih =>
    by_cases hq : q.1 = m
    · simp only [dictGet?, hq, beq_self_eq_true, if_true]
      intro h
      have hv : v = q.2 := (Option.some.inj h).symm
      have : (m, v) = q := by
        rw [← hq, hv]
      exact this ▸ List.mem_cons_self _ _
    · simp only [dictGet?, hq, if_false]
      intro h
      have hb : (q.1 == m) = false := by
        simp [hq]
      rw [hb] at h
      simp only [Bool.false_eq_true, if_false] at h
      exact List.mem_cons_of_mem _ (ih h)

theorem addList_val (ps : List Payment) :
    ∀ w : Dec, (addList w ps).val = w.val + ((ps.map fun p => p.amount.val).sum) := by
  induction ps with
  | nil =>
    intro w
    simp [addList]
  | cons p ps ih =>
    intro w
    have hstep : addList w (p :: ps) = addList (w.add p.amount) ps := rfl
    rw [hstep, ih, Dec.val_add, List.map_cons, List.sum_cons]
    ring

theorem weekTotalFold_val (payments : List Payment) (dates : List ℤ) :
    ∀ w : Dec, (weekTotalFold payments dates w).val =
      w.val + (((weekSelect payments dates).map fun p => p.amount.val).sum) := by
  induction dates with
  | nil =>
    intro w
    simp [weekTotalFold, weekSelect]
  | cons d ds ih =>
    intro w
    have hstep : weekTotalFold payments (d :: ds) w =
        weekTotalFold payments ds (addList w (daySelect payments d)) := rfl
    rw [hstep, ih, addList_val]
    simp only [weekSelect, List.map_cons, List.flatten_cons, List.map_append,
      List.sum_append]
    ring

theorem fmt2_zero : fmt2 Dec.zero = "0.00" := by decide

theorem Dec.zero_pos : Dec.zero.pos = false := by decide

theorem substrOf_trans {x y z : String} (h1 : substrOf x y) (h2 : substrOf y z) :
    substrOf x z := by
  obtain ⟨a, b, rfl⟩ := h1
  obtain ⟨c, e, rfl⟩ := h2
  exact ⟨c ++ a, b ++ e, by simp [String.append_assoc]⟩

theorem payLine_substr_dayText (payments : List Payment) (d : ℤ) (p : Payment)
    (hp : p ∈ daySelect payments d) : substrOf (payLine p) (dayText payments d) := by
  have hne : (daySelect payments d).isEmpty = false := by
    cases hsel : daySelect payments d with
    | nil =>
      rw [hsel] at hp
      cases hp
    | cons a l => rfl
  simp only [dayText, hne, Bool.false_eq_true, if_false]
  apply substrOf_appL
  apply substrOf_appR
  apply substrOf_appR
  apply substrOf_appR
  exact substrOf_concatStr payLine _ p hp

theorem memberLine_zero (md : List (String × List String)) (m : String)
    (hmd : dictGet? md m = some []) :
    memberLine md m Dec.zero = "❌ @" ++ m ++ ": $0.00 (Days: None)\n" := by
  simp only [memberLine, Dec.zero_pos, Bool.false_eq_true, if_false, hmd,
    Option.getD_some, List.isEmpty_nil, if_true, fmt2_zero]
  simp only [String.append_assoc]
  rw [← String.append_assoc]
  rfl

theorem zero_line_substr_summary (MT : List (String × Dec))
    (MD : List (String × List String)) (m : String)
    (hp : (m, Dec.zero) ∈ MT) (hg : dictGet? MD m = some []) :
    substrOf ("❌ @" ++ m ++ ": $0.00 (Days: None)\n")
      (concatStr (MT.map fun q => memberLine MD q.1 q.2)) := by
  have h := substrOf_concatStr (fun q => memberLine MD q.1 q.2) MT (m, Dec.zero) hp
  simp only [] at h
  rw [memberLine_zero MD m hg] at h
  exact h

/-- C6: a payment dated in the reporting week is displayed in the daily
listing and selected into the daily and week totals whether or not its
member is in the roster; the `member_totals`/`member_days` dicts (and the
rendered member summary) are unchanged when the payments of non-roster
members are dropped from the ledger; and a roster member with no payment
in range keeps total `0` and is rendered `❌ @m: $0.00 (Days: None)`. -/
theorem report_roster_exclusion_spec (data : LedgerData) (now : ℤ) :
    (∀ p ∈ data.payments, ∀ d ∈ weekDatesOf now, p.date = dateISO d →
        substrOf (payLine p) (generate_weekly_report data now)
        ∧ p ∈ weekSelect data.payments (weekDatesOf now)
        ∧ p ∈ daySelect data.payments d)
    ∧ ((weekTotalOf data now).val =
        (((weekSelect data.payments (weekDatesOf now)).map fun p => p.amount.val).sum))
    ∧ (∀ d : ℤ, (addList Dec.zero (daySelect data.payments d)).val =
        ((daySelect data.payments d).map fun p => p.amount.val).sum)
    ∧ (mtOf data now = mtOf (rosterOnly data) now
      ∧ mdOf data now = mdOf (rosterOnly data) now
      ∧ summaryText data now = summaryText (rosterOnly data) now)
    ∧ (∀ m ∈ data.members,
        (∀ p ∈ data.payments, p.date ∈ (weekDatesOf now).map dateISO → p.username ≠ m) →
        dictGet? (mtOf data now) m = some Dec.zero
        ∧ dictGet? (mdOf data now) m = some []
        ∧ substrOf ("❌ @" ++ m ++ ": $0.00 (Days: None)\n")
            (generate_weekly_report data now)) := by
  have hfil := weekTally_filter data.payments (weekDatesOf now)
    (fun u => data.members.contains u)
    (dictFromKeys data.members Dec.zero, dictFromKeys data.members [])
    (fun k => dictContains_fromKeys Dec.zero data.members k)
  have hmt : mtOf data now = mtOf (rosterOnly data) now := congrArg Prod.fst hfil
  have hmd : mdOf data now = mdOf (rosterOnly data) now := congrArg Prod.snd hfil
  refine ⟨?_, ?_, ?_, ⟨hmt, hmd, ?_⟩, ?_⟩
  · intro p hp d hd hdate
    have hsel : p ∈ daySelect data.payments d := (mem_daySelect _ _ _).mpr ⟨hp, hdate⟩
    refine ⟨?_, ?_, hsel⟩
    · rw [report_decomp]
      apply substrOf_appR
      apply substrOf_appL
      exact substrOf_trans (payLine_substr_dayText _ _ _ hsel)
        (substrOf_concatStr (dayText data.payments) _ d hd)
    · exact List.mem_flatten.mpr ⟨daySelect data.payments d,
        List.mem_map_of_mem _ hd, hsel⟩
  · rw [weekTotalOf, weekTotalFold_val, Dec.val_zero, zero_add]
    rfl
  · intro d
    rw [addList_val, Dec.val_zero, zero_add]
  · rw [summaryText, summaryText, ← hmt, ← hmd]
  · intro m hmem hnone
    have hget := weekTally_get_ne data.payments (weekDatesOf now) m hnone
      (dictFromKeys data.members Dec.zero, dictFromKeys data.members [])
    simp only [weekDatesOf] at hget
    have hget1 : dictGet? (mtOf data now) m = some Dec.zero := by
      rw [mtOf]
      rw [hget.1]
      show dictGet? (dictFromKeys data.members Dec.zero) m = some Dec.zero
      rw [dictFromKeys_eq, dictGet?_map_const,
        if_pos ((mem_pyDedup data.members m).mpr hmem)]
    have hget2 : dictGet? (mdOf data now) m = some [] := by
      rw [mdOf]
      rw [hget.2]
      show dictGet? (dictFromKeys data.members ([] : List String)) m = some []
      rw [dictFromKeys_eq, dictGet?_map_const,
        if_pos ((mem_pyDedup data.members m).mpr hmem)]
    refine ⟨hget1, hget2, ?_⟩
    have hpair : (m, Dec.zero) ∈ mtOf data now := mem_of_dictGet? _ _ _ hget1
    rw [report_decomp]
    apply substrOf_appL
    apply substrOf_appL
    apply substrOf_appR
    exact zero_line_substr_summary (mtOf data now) (mdOf data now) m hpair hget2

/-- Witness for `report_roster_exclusion_spec`: a ledger whose only
payment belongs to `"ghost"`, not in the roster `["john"]`, on the
Wednesday of the week reported on Sunday 2026-10-11. -/
theorem report_roster_exclusion_spec_wit :
    substrOf (payLine ⟨"ghost", ⟨25, 0⟩, "2026-10-07", "11:00:00", "Wednesday", "boss"⟩)
      (generate_weekly_report
        ⟨[⟨"ghost", ⟨25, 0⟩, "2026-10-07", "11:00:00", "Wednesday", "boss"⟩],
         ["john"], none⟩ 20737)
    ∧ dictGet? (mtOf
        ⟨[⟨"ghost", ⟨25, 0⟩, "2026-10-07", "11:00:00", "Wednesday", "boss"⟩],
         ["john"], none⟩ 20737) "john" = some Dec.zero
    ∧ substrOf ("❌ @" ++ "john" ++ ": $0.00 (Days: None)\n")
        (generate_weekly_report
          ⟨[⟨"ghost", ⟨25, 0⟩, "2026-10-07", "11:00:00", "Wednesday", "boss"⟩],
           ["john"], none⟩ 20737) := by
  have h := report_roster_exclusion_spec
    ⟨[⟨"ghost", ⟨25, 0⟩, "2026-10-07", "11:00:00", "Wednesday", "boss"⟩],
     ["john"], none⟩ 20737
  have hdisp := h.1 ⟨"ghost", ⟨25, 0⟩, "2026-10-07", "11:00:00", "Wednesday", "boss"⟩
    (by decide) 20733 (by decide) (by decide)
  have hzero := h.2.2.2.2 "john" (by decide) (by decide)
  exact ⟨hdisp.1, hzero.1, hzero.2.2⟩

theorem weekDates_closed (t : ℤ) :
    weekDates t (t + 4) = [t, t + 1, t + 2, t + 3, t + 4] := by
  have h5 : (t + 4 + 1 - t).toNat = 5 := by omega
  simp only [weekDates, h5]
  have hr : List.range 5 = [0, 1, 2, 3, 4] := rfl
  rw [hr]
  norm_num

theorem dayText_nil (d : ℤ) :
    dayText [] d = "\n📅 " ++ weekdayName d ++ " (" ++ dateISO d ++ "):\n"
      ++ "   No payments recorded\n" := rfl

theorem weekTotalFold_nil (dates : List ℤ) : ∀ w, weekTotalFold [] dates w = w := by
  induction dates with
  | nil =>
    intro w
    rfl
  | cons d ds ih =>
    intro w
    simp only [weekTotalFold, List.foldl_cons] at ih ⊢
    exact ih w

/-- C1 (amended): for an empty payment list the daily-breakdown loop
covers each calendar date from the computed Tuesday to the computed
Saturday inclusive — which is five dates, Tue…Sat, not six — each
rendered as "No payments recorded"; the week total renders as `$0.00` and
every roster member is rendered unpaid (`❌`) at `$0.00`. -/
theorem weekly_report_empty_spec (data : LedgerData) (now : ℤ)
    (h : data.payments = []) :
    (get_week_range now).2 = (get_week_range now).1 + 4
    ∧ weekDatesOf now =
        [(get_week_range now).1, (get_week_range now).1 + 1, (get_week_range now).1 + 2,
         (get_week_range now).1 + 3, (get_week_range now).1 + 4]
    ∧ (weekDatesOf now).length = 5
    ∧ generate_weekly_report data now =
        reportHeader now
        ++ concatStr ((weekDatesOf now).map
            (fun d => "\n📅 " ++ weekdayName d ++ " (" ++ dateISO d ++ "):\n"
              ++ "   No payments recorded\n"))
        ++ (summarySep
          ++ (concatStr ((pyDedup data.members).map
              (fun m => "❌ @" ++ m ++ ": $0.00 (Days: None)\n"))
            ++ reportFooter Dec.zero))
    ∧ fmt2 Dec.zero = "0.00" := by
  have hsat : (get_week_range now).2 = (get_week_range now).1 + 4 := rfl
  have hdates : weekDatesOf now =
      [(get_week_range now).1, (get_week_range now).1 + 1, (get_week_range now).1 + 2,
       (get_week_range now).1 + 3, (get_week_range now).1 + 4] := by
    simp only [weekDatesOf, hsat]
    exact weekDates_closed (get_week_range now).1
  refine ⟨hsat, hdates, by rw [hdates]; rfl, ?_, fmt2_zero⟩
  have hmt : mtOf data now = dictFromKeys data.members Dec.zero := by
    simp only [mtOf, h]
    rw [weekTally_nil]
  have hmd : mdOf data now = dictFromKeys data.members [] := by
    simp only [mdOf, h]
    rw [weekTally_nil]
  have hwt : weekTotalOf data now = Dec.zero := by
    simp only [weekTotalOf, h]
    rw [weekTotalFold_nil]
  have hsum : summaryText data now =
      concatStr ((pyDedup data.members).map
        (fun m => "❌ @" ++ m ++ ": $0.00 (Days: None)\n")) := by
    simp only [summaryText]
    rw [hmt, hmd, dictFromKeys_eq Dec.zero data.members, List.map_map]
    congr 1
    apply List.map_congr_left
    intro m hm
    have hg : dictGet? (dictFromKeys data.members ([] : List String)) m = some [] := by
      rw [dictFromKeys_eq, dictGet?_map_const, if_pos hm]
    show memberLine (dictFromKeys data.members []) m Dec.zero = _
    exact memberLine_zero _ _ hg
  have hdaytext : (weekDatesOf now).map (dayText data.payments) =
      (weekDatesOf now).map (fun d => "\n📅 " ++ weekdayName d ++ " (" ++ dateISO d
        ++ "):\n" ++ "   No payments recorded\n") := by
    apply List.map_congr_left
    intro d _
    rw [h]
    exact dayText_nil d
  have hdays2 : concatStr
      ((weekDates (get_week_range now).1 (get_week_range now).2).map
        (dayText data.payments)) =
      concatStr ((weekDatesOf now).map
        (fun d => "\n📅 " ++ weekdayName d ++ " (" ++ dateISO d ++ "):\n"
          ++ "   No payments recorded\n")) := by
    show concatStr ((weekDatesOf now).map (dayText data.payments)) = _
    exact congrArg concatStr hdaytext
  rw [report_decomp, hdays2, hsum, hwt]

/-- Witness for `weekly_report_empty_spec`: the empty ledger with roster
`["john", "mary"]` on Sunday 2026-10-11. -/
theorem weekly_report_empty_spec_wit :
    (get_week_range 20737).2 = (get_week_range 20737).1 + 4
    ∧ weekDatesOf 20737 =
        [(get_week_range 20737).1, (get_week_range 20737).1 + 1,
         (get_week_range 20737).1 + 2, (get_week_range 20737).1 + 3,
         (get_week_range 20737).1 + 4]
    ∧ (weekDatesOf 20737).length = 5
    ∧ generate_weekly_report ⟨[], ["john", "mary"], none⟩ 20737 =
        reportHeader 20737
        ++ concatStr ((weekDatesOf 20737).map
            (fun d => "\n📅 " ++ weekdayName d ++ " (" ++ dateISO d ++ "):\n"
              ++ "   No payments recorded\n"))
        ++ (summarySep
          ++ (concatStr ((pyDedup ["john", "mary"]).map
              (fun m => "❌ @" ++ m ++ ": $0.00 (Days: None)\n"))
            ++ reportFooter Dec.zero))
    ∧ fmt2 Dec.zero = "0.00" :=
  weekly_report_empty_spec ⟨[], ["john", "mary"], none⟩ 20737 rfl

/-- C1 counterexample: the claim's "all six days" is false on the code —
the loop `while current_date <= saturday` with `saturday = tuesday + 4`
visits five dates (Tue…Sat), and the report of an empty ledger contains
exactly five "No payments recorded" sections, not six. -/
theorem weekly_report_six_days_cex :
    countOccur (generate_weekly_report ⟨[], ["john", "mary"], none⟩ 20737)
      "No payments recorded" = 5
    ∧ countOccur (generate_weekly_report ⟨[], ["john", "mary"], none⟩ 20737)
        "No payments recorded" ≠ 6
    ∧ (weekDatesOf 20737).length = 5 ∧ (5 : ℕ) ≠ 6 := by
  set_option maxRecDepth 100000 in
  exact ⟨by decide, by decide, by decide, by decide⟩

end Shorekeeper
